import Mathlib

/-!
The `vartop` check of `src/style.js`

A shallow embedding of the handler `style_scanVarTop` (registered on the
`Keyword Punctuator Comment` events) together with the module-level variables it
closes over.  The spec calls the handler `process_token` and the variables
`comment_line_span` (`commentLns`), `last_valid_decl_line` (`lastValidVarDecLn`),
`function_stack` (`funcDecStack`), `bracket_stack` (`puncStack`),
`valid_decl_lines` (`validVarDecLns`), `last_line_punctuator` (`lastValidLnPunc`),
`last_non_comment_non_function_token` (`lastNonCommentOrNonFunc`) and
`last_token` (`lastToken`).

Conventions of the embedding:
* the JavaScript arrays used as stacks (`push`/`pop` at the end) are lists whose
  head is the top of the stack; `validVarDecLns` is only ever appended to and
  searched, and is a list in push order;
* `undefined` is `none`;
* a step that throws a `TypeError` (reading `.line` of `undefined`) is `none`;
* `linter.warn` appends to the list of diagnostics returned by the step.
-/

namespace VarTop

/-- The `type` field of the tokens delivered to the handler: `"(keyword)"`,
`"(punctuator)"` or `"(comment)"`. -/
inductive TokType where
  | keyword
  | punctuator
  | comment
  deriving DecidableEq, Repr

/-- The fields of the event payload `data` that the handler reads. -/
structure Token where
  type : TokType
  name : String
  line : Nat
  char : Nat
  deriving DecidableEq, Repr

/-- The payload of `linter.warn(code, { line, char })`. -/
structure Diagnostic where
  code : String
  line : Nat
  char : Nat
  deriving DecidableEq, Repr

/-- The variables declared at lines 175-187 of `style.js`.  `lastValidLnPunc` is
`none` for the initial object `{ name : "", type : "" }`, which has no `line`. -/
structure State where
  commentLns : Nat
  lastValidVarDecLn : Nat
  funcDecStack : List Token
  puncStack : List Token
  validVarDecLns : List Nat
  lastNonCommentOrNonFunc : Option Token
  lastToken : Option Token
  lastValidLnPunc : Option Token
  deriving DecidableEq, Repr

/-- The state at the start of a scan (lines 175-187). -/
def fresh : State :=
  { commentLns := 0
    lastValidVarDecLn := 0
    funcDecStack := []
    puncStack := []
    validVarDecLns := []
    lastNonCommentOrNonFunc := none
    lastToken := none
    lastValidLnPunc := none }

def openPuncs : List String := ["(", "\x7b", "["]

def closePuncs : List String := [")", "\x7d", "]"]

/-- The pieces of `cur ++ rest` cut at every newline, `cur` being the piece under
construction: `name.split("\n")` on the characters of `name`. -/
def splitNewline : List Char → List Char → List (List Char)
  | cur, [] => [cur]
  | cur, c :: cs => if c = '\n' then cur :: splitNewline [] cs else splitNewline (cur ++ [c]) cs

/-- Value of `data.name.split("\n").length` (line 244). -/
def commentLineCount (name : String) : Nat :=
  (splitNewline [] name.toList).length

/-- Value of `lastValidLnPunc.name`. -/
def lnPuncName : Option Token → String
  | none => ""
  | some p => p.name

/-- Value of `data.line !== lastValidLnPunc.line`; the initial object has no
`line`, and a number is never `undefined`. -/
def lnPuncLineDiffers (line : Nat) : Option Token → Bool
  | none => true
  | some p => line != p.line

/-- Lines 201-234: the bookkeeping of opening and closing punctuators.  `lastFunc`
is the local variable of lines 194-196.  The result is `none` when `tok` is
`undefined` at line 208. -/
def bracketPhase (s : State) (lastFunc : Option Token) (data : Token) : Option State :=
  if data.type = TokType.punctuator ∧ data.name ∈ openPuncs ++ closePuncs then
    if data.name ∈ openPuncs then
      some { s with puncStack := data :: s.puncStack }
    else
      match s.puncStack with
      | [] => none
      | tok :: rest =>
        let s1 := { s with puncStack := rest }
        if tok.line ∈ s1.validVarDecLns then
          let s2 := { s1 with lastValidVarDecLn := data.line
                              lastNonCommentOrNonFunc := none
                              commentLns := 0 }
          match lastFunc with
          | some f =>
            if f.line = tok.line then some { s2 with funcDecStack := s2.funcDecStack.tail }
            else some s2
          | none => some s2
        else if tok.name = "\x7b" then
          match lastFunc with
          | none =>
            some { s1 with lastValidVarDecLn := data.line
                           lastNonCommentOrNonFunc := none
                           commentLns := 0 }
          | some f =>
            if f.line ≠ tok.line then
              some { s1 with lastValidVarDecLn := data.line
                             lastNonCommentOrNonFunc := none
                             commentLns := 0 }
            else some { s1 with funcDecStack := s1.funcDecStack.tail }
        else some s1
  else some s

/-- The condition of lines 245-246. -/
def contiguous (s : State) (lastFunc : Option Token) (data : Token) : Bool :=
  data.line == s.lastValidVarDecLn + s.commentLns + 1 ||
    (match lastFunc with
     | none => false
     | some f => data.line == f.line + s.commentLns + 1)

/-- Lines 247-256: the body of the contiguous branch. -/
def contiguousBody (s : State) (data : Token) : State :=
  let l1 := if data.name = "var" then data.line else s.lastValidVarDecLn
  let l2 := if data.name = "," ∧ lnPuncName s.lastValidLnPunc = "," ∧
      lnPuncLineDiffers data.line s.lastValidLnPunc = true then l1 + 1 else l1
  let l3 := if data.name = ";" ∧ lnPuncName s.lastValidLnPunc = "," then l2 + 1 else l2
  { s with lastValidVarDecLn := l3 + s.commentLns
           commentLns := 0
           lastNonCommentOrNonFunc := none }

/-- Lines 259-278: a `var` that is not contiguous.  The result is `none` when
`lastToken` is `undefined` at line 263. -/
def varBranch (s : State) (lastFunc : Option Token) (data : Token) :
    Option (State × List Diagnostic) :=
  match s.lastToken with
  | none => none
  | some lt =>
    if lt.line ≠ s.lastValidVarDecLn + s.commentLns ∧ s.lastNonCommentOrNonFunc.isSome = true then
      if (match lastFunc with
          | none => true
          | some f => lt.line != f.line + s.commentLns) = true then
        some (s, [{ code := "W121", line := data.line, char := data.char }])
      else some (s, [])
    else
      some ({ s with lastValidVarDecLn := data.line
                     commentLns := 0
                     lastNonCommentOrNonFunc := none }, [])

/-- Lines 237-279: returns the state, the value of the local `lastFunc` and the
diagnostics. -/
def declPhase (s : State) (lastFunc : Option Token) (data : Token) :
    Option (State × Option Token × List Diagnostic) :=
  if data.name = "function" then
    some ({ s with commentLns := 0
                   funcDecStack := data :: s.funcDecStack
                   lastNonCommentOrNonFunc := none }, some data, [])
  else if data.type = TokType.comment then
    some ({ s with commentLns := s.commentLns + commentLineCount data.name }, lastFunc, [])
  else if contiguous s lastFunc data = true then
    some (contiguousBody s data, lastFunc, [])
  else if data.name = "var" then
    match varBranch s lastFunc data with
    | none => none
    | some (s1, ds) => some (s1, lastFunc, ds)
  else some (s, lastFunc, [])

/-- Lines 281-294: the trailing bookkeeping. -/
def trailingPhase (s : State) (lastFunc : Option Token) (data : Token) : State :=
  let s1 :=
    if s.lastValidVarDecLn ∉ s.validVarDecLns ∧
        (match lastFunc with
         | none => true
         | some f => f.line != data.line) = true then
      { s with validVarDecLns := s.validVarDecLns ++ [s.lastValidVarDecLn] }
    else s
  let s2 :=
    { s1 with
      lastValidLnPunc :=
        if data.type = TokType.punctuator ∧ s1.lastValidVarDecLn = data.line then some data
        else s1.lastValidLnPunc
      lastToken := some data }
  if data.type ≠ TokType.comment ∧ data.name ≠ "function" then
    if data.line ≠ s2.lastValidVarDecLn ∧
        (match lastFunc with
         | none => false
         | some f => data.line != f.line) = true then
      { s2 with lastNonCommentOrNonFunc := some data }
    else s2
  else s2

/-- The handler `style_scanVarTop` (lines 190-295); `vartop` is the value of
`linter.getOption("vartop")`.  In the spec: `process_token`. -/
def style_scanVarTop (vartop : Bool) (s : State) (data : Token) :
    Option (State × List Diagnostic) :=
  if vartop = false then some (s, [])
  else
    let lastFunc := s.funcDecStack.head?
    match bracketPhase s lastFunc data with
    | none => none
    | some s1 =>
      match declPhase s1 lastFunc data with
      | none => none
      | some (s2, lastFunc2, ds) => some (trailingPhase s2 lastFunc2 data, ds)

/-- The handler run over a token stream, the option being on: the final state and
all diagnostics in order, or `none` if a step throws. -/
def run : State → List Token → Option (State × List Diagnostic)
  | s, [] => some (s, [])
  | s, t :: ts =>
    match style_scanVarTop true s t with
    | none => none
    | some (s1, ds) =>
      match run s1 ts with
      | none => none
      | some (s2, ds2) => some (s2, ds ++ ds2)

/-- A keyword token. -/
def kw (name : String) (line char : Nat) : Token :=
  { type := TokType.keyword, name := name, line := line, char := char }

/-- A punctuator token. -/
def pn (name : String) (line char : Nat) : Token :=
  { type := TokType.punctuator, name := name, line := line, char := char }

/-- A comment token. -/
def cm (text : String) (line char : Nat) : Token :=
  { type := TokType.comment, name := text, line := line, char := char }

/-- The diagnostics of a run (none when a step throws). -/
def diagnosticsOf (ts : List Token) : Option (List Diagnostic) :=
  (run fresh ts).map Prod.snd

/-- The value of `lastValidVarDecLn` at the end of a run. -/
def lastValidAfter (ts : List Token) : Option Nat :=
  (run fresh ts).map fun r => r.1.lastValidVarDecLn

/-- Bracket matching of a stream: `stack` holds the names of the unclosed openers,
innermost first; every closer must pair with the innermost opener and nothing may
stay open at the end. -/
def bracketsMatch : List String → List Token → Bool
  | stack, [] => stack.isEmpty
  | stack, t :: ts =>
    if t.type = TokType.punctuator ∧ t.name ∈ openPuncs then bracketsMatch (t.name :: stack) ts
    else if t.type = TokType.punctuator ∧ t.name ∈ closePuncs then
      match stack with
      | [] => false
      | o :: rest =>
        if (o, t.name) ∈ [("(", ")"), ("\x7b", "\x7d"), ("[", "]")] then bracketsMatch rest ts else false
    else bracketsMatch stack ts

/-- The lines of a stream never decrease. -/
def linesNonDecreasing : List Token → Bool
  | [] => true
  | [_] => true
  | a :: b :: ts => decide (a.line ≤ b.line) && linesNonDecreasing (b :: ts)

/-! ### The token streams of the scenarios

Only keywords, punctuators and comments reach the handler; identifiers and
literals (`a`, `true`, `console`, ...) are other events.  Columns count from 1. -/

/-- Scenario C, lines 17-22 of `fixtures/vartop.js`:
```
(function () {
	var a = true;
	if (a)
		return;
	var b = false;
}());
``` -/
def scenarioC : List Token :=
  [pn "(" 1 1, kw "function" 1 2, pn "(" 1 11, pn ")" 1 12, pn "\x7b" 1 14,
   kw "var" 2 2, pn "=" 2 8, pn ";" 2 14,
   kw "if" 3 2, pn "(" 3 5, pn ")" 3 7,
   kw "return" 4 3, pn ";" 4 9,
   kw "var" 5 2, pn "=" 5 8, pn ";" 5 15,
   pn "\x7d" 6 1, pn "(" 6 2, pn ")" 6 3, pn ")" 6 4, pn ";" 6 5]

/-- Scenario B at file scope:
```
var a;
console.log(a);
var b;
``` -/
def scenarioB : List Token :=
  [kw "var" 1 1, pn ";" 1 6,
   pn "." 2 8, pn "(" 2 12, pn ")" 2 14, pn ";" 2 15,
   kw "var" 3 1, pn ";" 3 6]

/-- A function whose declarations are all at the top, the first a one-line list:
```
function f() {
	var v1, v2;
	var v3;
	return;
}
``` -/
def listThenVar : List Token :=
  [kw "function" 1 1, pn "(" 1 11, pn ")" 1 12, pn "\x7b" 1 14,
   kw "var" 2 2, pn "," 2 8, pn ";" 2 12,
   kw "var" 3 2, pn ";" 3 8,
   kw "return" 4 2, pn ";" 4 8,
   pn "\x7d" 5 1]

/-- A comment followed by two declarations:
```
function f() {
	// comment
	var a;
	var b;
}
``` -/
def commentThenVars : List Token :=
  [kw "function" 1 1, pn "(" 1 11, pn ")" 1 12, pn "\x7b" 1 14,
   cm "// comment" 2 2,
   kw "var" 3 2, pn ";" 3 7,
   kw "var" 4 2, pn ";" 4 7,
   pn "\x7d" 5 1]

/-- One `,` on each of the `m` lines after line `k`. -/
def commaLines : Nat → Nat → List Token
  | _, 0 => []
  | k, m + 1 => pn "," (k + 1) 3 :: commaLines (k + 1) m

/-- Scenario D up to the `;` that closes the list: `var` and `,` on line 1, one `,`
on each of the lines `2 .. n - 1`, `;` on line `n`. -/
def scenarioDList (n : Nat) : List Token :=
  [kw "var" 1 1, pn "," 1 6] ++ commaLines 1 (n - 2) ++ [pn ";" n 3]

/-- Scenario D: the list followed by `var` and `;` on line `n + 1`. -/
def scenarioD (n : Nat) : List Token :=
  scenarioDList n ++ [kw "var" (n + 1) 1, pn ";" (n + 1) 6]

/-- Nested functions:
```
function outer() {
	var a;
	function inner() {
		var b;
		foo();
		var c;
	}
	bar();
	var d;
}
``` -/
def nestedFunctions : List Token :=
  [kw "function" 1 1, pn "(" 1 15, pn ")" 1 16, pn "\x7b" 1 18,
   kw "var" 2 2, pn ";" 2 7,
   kw "function" 3 2, pn "(" 3 16, pn ")" 3 17, pn "\x7b" 3 19,
   kw "var" 4 3, pn ";" 4 8,
   pn "(" 5 6, pn ")" 5 7, pn ";" 5 8,
   kw "var" 6 3, pn ";" 6 8,
   pn "\x7d" 7 2,
   pn "(" 8 5, pn ")" 8 6, pn ";" 8 7,
   kw "var" 9 2, pn ";" 9 7,
   pn "\x7d" 10 1]

/-- Scenario E on one line, up to the closing brace of the function:
`var a = function () { var b; }`. -/
def inlineOneLineBody : List Token :=
  [kw "var" 1 1, pn "=" 1 7, kw "function" 1 9, pn "(" 1 18, pn ")" 1 19, pn "\x7b" 1 21,
   kw "var" 1 23, pn ";" 1 28, pn "\x7d" 1 30]

/-- Scenario E on one line: the function, `;` and `var c;` on line 2. -/
def inlineOneLine : List Token :=
  inlineOneLineBody ++ [pn ";" 1 31, kw "var" 2 1, pn ";" 2 6]

/-- Scenario E over several lines, up to the closing brace on line 3:
```
var a = function () {
	var b;
};
var c;
``` -/
def inlineMultiLineBody : List Token :=
  [kw "var" 1 1, pn "=" 1 7, kw "function" 1 9, pn "(" 1 18, pn ")" 1 19, pn "\x7b" 1 21,
   kw "var" 2 2, pn ";" 2 7,
   pn "\x7d" 3 1]

/-- Scenario E over several lines: the function, `;` and `var c;` on line 4. -/
def inlineMultiLine : List Token :=
  inlineMultiLineBody ++ [pn ";" 3 2, kw "var" 4 1, pn ";" 4 6]

/-- The state reached in scenario C after the `;` of line 4. -/
def beforeLateVar : State :=
  { commentLns := 0
    lastValidVarDecLn := 2
    funcDecStack := [kw "function" 1 2]
    puncStack := [pn "\x7b" 1 14, pn "(" 1 1]
    validVarDecLns := [0, 2]
    lastNonCommentOrNonFunc := some (pn ";" 4 9)
    lastToken := some (pn ";" 4 9)
    lastValidLnPunc := some (pn ";" 2 14) }

/-- The state reached in scenario C after the `var` of line 5. -/
def afterLateVar : State :=
  { beforeLateVar with
    lastNonCommentOrNonFunc := some (kw "var" 5 2)
    lastToken := some (kw "var" 5 2) }

/-- The diagnostics emitted while a stream is processed, up to the end of the
stream or to the first step that throws. -/
def emitted : State → List Token → List Diagnostic
  | _, [] => []
  | s, t :: ts =>
    match style_scanVarTop true s t with
    | none => []
    | some (s1, ds) => ds ++ emitted s1 ts

/-- A one-line function up to its `var`: `function f() { var`. -/
def oneLineFunctionVar : List Token :=
  [kw "function" 1 1, pn "(" 1 11, pn ")" 1 12, pn "\x7b" 1 14, kw "var" 1 16]

/-- The state after a whole-line comment on line 1. -/
def afterComment : State :=
  { fresh with commentLns := 1
               validVarDecLns := [0]
               lastToken := some (cm "// c" 1 1) }

/-- The state after a first token `var` on line 1. -/
def afterFirstVar : State :=
  { fresh with lastValidVarDecLn := 1
               validVarDecLns := [1]
               lastToken := some (kw "var" 1 1) }

/-- The state after a whole-line comment on line 1 and a `;` on line 2. -/
def afterCommentSemicolon : State :=
  { fresh with lastValidVarDecLn := 1
               validVarDecLns := [0, 1]
               lastToken := some (pn ";" 2 1) }

/-- The start of a function assigned to a variable, up to the opening parenthesis
of the parameter list: `var a = function (`. -/
def assignedFunctionOpen : List Token :=
  [kw "var" 1 1, pn "=" 1 7, kw "function" 1 9, pn "(" 1 18]

/-- A function assigned to a variable whose body has a `var` after a call:
```
var a = function () {
	var b;
	foo();
	var c;
};
``` -/
def assignedFunctionLateVar : List Token :=
  assignedFunctionOpen ++
    [pn ")" 1 19, pn "\x7b" 1 21,
     kw "var" 2 2, pn ";" 2 7,
     pn "(" 3 5, pn ")" 3 6, pn ";" 3 7,
     kw "var" 4 2, pn ";" 4 7,
     pn "\x7d" 5 1, pn ";" 5 2]

/-- The token is one of the opening punctuators (lines 201 and 204). -/
def isOpener (t : Token) : Bool :=
  decide (t.type = TokType.punctuator ∧ t.name ∈ openPuncs)

/-- The token is one of the closing punctuators. -/
def isCloser (t : Token) : Bool :=
  decide (t.type = TokType.punctuator ∧ t.name ∈ closePuncs)

/-- The closing punctuator `c` is of the kind of the opening punctuator `o`. -/
def closes (o c : Token) : Bool :=
  decide ((o.name, c.name) ∈ [("(", ")"), ("\x7b", "\x7d"), ("[", "]")])

/-- Reference bracket matching, independent of the handler: the openers of the
stream that are still unclosed, innermost first, starting from `stack`; `none` if a
closer meets no opener or an opener of another kind. -/
def unclosedOpeners : List Token → List Token → Option (List Token)
  | stack, [] => some stack
  | stack, t :: ts =>
    if isOpener t = true then unclosedOpeners (t :: stack) ts
    else if isCloser t = true then
      match stack with
      | [] => none
      | o :: rest => if closes o t = true then unclosedOpeners rest ts else none
    else unclosedOpeners stack ts

/-- The function header `function f() {` on line `L`. -/
def functionHeader (L : Nat) : List Token :=
  [kw "function" L 1, pn "(" L 11, pn ")" L 12, pn "\x7b" L 14]

/-- The statements `var x = ...;`, one on each of the `m` lines after line `k`. -/
def varStatements : Nat → Nat → List Token
  | _, 0 => []
  | k, m + 1 => kw "var" (k + 1) 2 :: pn "=" (k + 1) 8 :: pn ";" (k + 1) 12 :: varStatements (k + 1) m

/-! ### The quoting check (`style_scanQuotes`, lines 87-126) -/

/-- A value of `linter.getOption("quotmark")`. -/
inductive OptionValue where
  | undefined
  | bool (b : Bool)
  | str (s : String)
  deriving DecidableEq, Repr

/-- JavaScript truthiness of an option value. -/
def OptionValue.truthy : OptionValue → Bool
  | .undefined => false
  | .bool b => b
  | .str s => s != ""

/-- The fields of a `String` event that the handler reads. -/
structure StringEvent where
  quote : String
  line : Nat
  char : Nat
  deriving DecidableEq, Repr

/-- Truthiness of `linter.getCache("quotmark")`: unset or the empty string is
falsy. -/
def cacheTruthy : Option String → Bool
  | none => false
  | some q => q != ""

/-- The handler `style_scanQuotes`: the cache entry `quotmark` after the call and
the warnings.  The local `code` is `none` while it is `undefined`. -/
def style_scanQuotes (quotmark : OptionValue) (cache : Option String) (data : StringEvent) :
    Option String × List Diagnostic :=
  if quotmark.truthy = false then (cache, [])
  else
    let code1 : Option String :=
      if quotmark = OptionValue.str "single" ∧ data.quote ≠ "\x27" then some "W109" else none
    let code2 : Option String :=
      if quotmark = OptionValue.str "double" ∧ data.quote ≠ "\x22" then some "W108" else code1
    let cache1 : Option String :=
      if quotmark = OptionValue.bool true ∧ cacheTruthy cache = false then some data.quote
      else cache
    let code3 : Option String :=
      if quotmark = OptionValue.bool true ∧ cache1 ≠ some data.quote then some "W110" else code2
    match code3 with
    | none => (cache1, [])
    | some c => (cache1, [{ code := c, line := data.line, char := data.char }])

/-- The handler over a sequence of `String` events: for each event the cache after
it and the warnings it raised. -/
def scanQuotesTrace (quotmark : OptionValue) :
    Option String → List StringEvent → List (Option String × List Diagnostic)
  | _, [] => []
  | cache, e :: es =>
    (style_scanQuotes quotmark cache e) ::
      scanQuotesTrace quotmark (style_scanQuotes quotmark cache e).1 es

/-! ### General facts about the handler -/

theorem varBranch_diag {s s1 : State} {lastFunc : Option Token} {data : Token}
    {ds : List Diagnostic} (h : varBranch s lastFunc data = some (s1, ds)) :
    ds = [] ∨ ds = [{ code := "W121", line := data.line, char := data.char }] := by
  unfold varBranch at h
  split at h
  · simp at h
  · split_ifs at h <;> simp at h <;> simp [← h.2]

theorem declPhase_diag {s s2 : State} {lastFunc lastFunc2 : Option Token} {data : Token}
    {ds : List Diagnostic} (h : declPhase s lastFunc data = some (s2, lastFunc2, ds)) :
    ds = [] ∨ (ds = [{ code := "W121", line := data.line, char := data.char }] ∧
      data.name = "var" ∧ data.type ≠ TokType.comment) := by
  unfold declPhase at h
  split_ifs at h with h1 h2 h3 h4
  · simp at h; simp [← h.2.2]
  · simp at h; simp [← h.2.2]
  · simp at h; simp [← h.2.2]
  · cases hv : varBranch s lastFunc data with
    | none => simp [hv] at h
    | some r =>
      obtain ⟨s1, ds1⟩ := r
      simp [hv] at h
      rcases varBranch_diag hv with h5 | h5
      · left; rw [← h.2.2]; exact h5
      · right; rw [← h.2.2]; exact ⟨h5, h4, h2⟩
  · simp at h; simp [← h.2.2]

theorem run_cons_some {s s1 s2 : State} {t : Token} {ts : List Token}
    {ds1 ds2 : List Diagnostic} (h1 : style_scanVarTop true s t = some (s1, ds1))
    (h2 : run s1 ts = some (s2, ds2)) : run s (t :: ts) = some (s2, ds1 ++ ds2) := by
  rw [run, h1]
  simp only [h2]

theorem run_append_some {s s1 s2 : State} {a b : List Token} {ds1 ds2 : List Diagnostic}
    (h1 : run s a = some (s1, ds1)) (h2 : run s1 b = some (s2, ds2)) :
    run s (a ++ b) = some (s2, ds1 ++ ds2) := by
  induction a generalizing s ds1 with
  | nil =>
    simp only [run, Option.some.injEq, Prod.mk.injEq] at h1
    obtain ⟨rfl, rfl⟩ := h1
    simpa using h2
  | cons t ts ih =>
    rw [run] at h1
    cases hs : style_scanVarTop true s t with
    | none => simp [hs] at h1
    | some r =>
      obtain ⟨sa, da⟩ := r
      simp only [hs] at h1
      cases hr : run sa ts with
      | none => simp [hr] at h1
      | some r1 =>
        obtain ⟨sb, db⟩ := r1
        simp only [hr, Option.some.injEq, Prod.mk.injEq] at h1
        obtain ⟨rfl, rfl⟩ := h1
        have h3 := ih hr
        rw [List.cons_append, run_cons_some hs h3, List.append_assoc]

/-! ### The steps of a comma list at file scope -/

theorem comma_step (s : State) (k c0 c : Nat) (h0 : s.commentLns = 0)
    (h1 : s.lastValidVarDecLn = k) (h2 : s.funcDecStack = [])
    (h3 : s.lastValidLnPunc = some (pn "," k c0)) :
    ∃ s1, style_scanVarTop true s (pn "," (k + 1) c) = some (s1, []) ∧ s1.commentLns = 0 ∧
      s1.lastValidVarDecLn = k + 1 ∧ s1.funcDecStack = [] ∧
      s1.lastValidLnPunc = some (pn "," (k + 1) c) := by
  simp [style_scanVarTop, bracketPhase, declPhase, contiguous, contiguousBody, trailingPhase, pn,
    openPuncs, closePuncs, lnPuncName, lnPuncLineDiffers, h0, h1, h2, h3]
  split_ifs <;> simp

theorem commaLines_run (m : Nat) : ∀ (s : State) (k c0 : Nat), s.commentLns = 0 →
    s.lastValidVarDecLn = k → s.funcDecStack = [] → s.lastValidLnPunc = some (pn "," k c0) →
    ∃ s1 c1, run s (commaLines k m) = some (s1, []) ∧ s1.commentLns = 0 ∧
      s1.lastValidVarDecLn = k + m ∧ s1.funcDecStack = [] ∧
      s1.lastValidLnPunc = some (pn "," (k + m) c1) := by
  induction m with
  | zero =>
    intro s k c0 h0 h1 h2 h3
    exact ⟨s, c0, rfl, h0, h1, h2, h3⟩
  | succ m ih =>
    intro s k c0 h0 h1 h2 h3
    obtain ⟨s1, e1, a0, a1, a2, a3⟩ := comma_step s k c0 3 h0 h1 h2 h3
    obtain ⟨s2, c2, e2, b0, b1, b2, b3⟩ := ih s1 (k + 1) 3 a0 a1 a2 a3
    refine ⟨s2, c2, ?_, b0, ?_, b2, ?_⟩
    · simpa using run_cons_some e1 e2
    · omega
    · rw [b3]; congr 2; omega

theorem semicolon_step (s : State) (k c0 c : Nat) (h0 : s.commentLns = 0)
    (h1 : s.lastValidVarDecLn = k) (h2 : s.funcDecStack = [])
    (h3 : s.lastValidLnPunc = some (pn "," k c0)) :
    ∃ s1, style_scanVarTop true s (pn ";" (k + 1) c) = some (s1, []) ∧ s1.commentLns = 0 ∧
      s1.lastValidVarDecLn = k + 1 ∧ s1.funcDecStack = [] := by
  simp [style_scanVarTop, bracketPhase, declPhase, contiguous, contiguousBody, trailingPhase, pn,
    openPuncs, closePuncs, lnPuncName, h0, h1, h2, h3]
  split_ifs <;> simp

theorem var_step (s : State) (k c : Nat) (h0 : s.commentLns = 0)
    (h1 : s.lastValidVarDecLn = k) (h2 : s.funcDecStack = []) :
    ∃ s1, style_scanVarTop true s (kw "var" (k + 1) c) = some (s1, []) ∧ s1.commentLns = 0 ∧
      s1.lastValidVarDecLn = k + 1 ∧ s1.funcDecStack = [] := by
  simp [style_scanVarTop, bracketPhase, declPhase, contiguous, contiguousBody, trailingPhase, kw,
    h0, h1, h2]
  split_ifs <;> simp

theorem closing_semicolon_step (s : State) (k c : Nat) (h0 : s.commentLns = 0)
    (h1 : s.lastValidVarDecLn = k) (h2 : s.funcDecStack = []) :
    ∃ s1, style_scanVarTop true s (pn ";" k c) = some (s1, []) := by
  simp [style_scanVarTop, bracketPhase, declPhase, contiguous, trailingPhase, pn,
    openPuncs, closePuncs, h0, h1, h2]

theorem scenarioDList_run (m : Nat) :
    ∃ s1, run fresh (scenarioDList (m + 2)) = some (s1, []) ∧ s1.commentLns = 0 ∧
      s1.lastValidVarDecLn = m + 2 ∧ s1.funcDecStack = [] := by
  have e0 : run fresh [kw "var" 1 1, pn "," 1 6] =
      some ({ fresh with lastValidVarDecLn := 1
                         validVarDecLns := [1]
                         lastToken := some (pn "," 1 6)
                         lastValidLnPunc := some (pn "," 1 6) }, []) := by decide
  obtain ⟨s1, c1, e1, a0, a1, a2, a3⟩ := commaLines_run m
    { fresh with lastValidVarDecLn := 1
                 validVarDecLns := [1]
                 lastToken := some (pn "," 1 6)
                 lastValidLnPunc := some (pn "," 1 6) } 1 6 rfl rfl rfl rfl
  obtain ⟨s2, e2, b0, b1, b2⟩ := semicolon_step s1 (1 + m) c1 3 a0 a1 a2 a3
  refine ⟨s2, ?_, b0, by omega, b2⟩
  have e3 : run s1 [pn ";" (m + 2) 3] = some (s2, []) := by
    have : 1 + m + 1 = m + 2 := by omega
    rw [this] at e2
    simpa using run_cons_some e2 (rfl : run s2 [] = some (s2, []))
  have e4 := run_append_some (run_append_some e0 e1) e3
  simpa [scenarioDList] using e4

/-! ### The claims -/

/-- C1: with the option on, a step of `style_scanVarTop` (`process_token`) that
completes emits at most one diagnostic, and every diagnostic it emits is for a
token named `var` that is not a comment, has code `W121` and carries the line and
char of that token. -/
theorem style_scanVarTop_diagnostic (s s1 : State) (data : Token) (ds : List Diagnostic)
    (h : style_scanVarTop true s data = some (s1, ds)) :
    ds.length ≤ 1 ∧
      ∀ d ∈ ds, data.name = "var" ∧ data.type ≠ TokType.comment ∧ d.code = "W121" ∧
        d.line = data.line ∧ d.char = data.char := by
  unfold style_scanVarTop at h
  simp only [Bool.true_eq_false, if_false] at h
  cases hb : bracketPhase s s.funcDecStack.head? data with
  | none => simp [hb] at h
  | some sb =>
    simp only [hb] at h
    cases hd : declPhase sb s.funcDecStack.head? data with
    | none => simp [hd] at h
    | some r =>
      obtain ⟨s2, lf2, ds2⟩ := r
      simp only [hd, Option.some.injEq, Prod.mk.injEq] at h
      rcases declPhase_diag hd with h5 | ⟨h5, h6, h7⟩
      · rw [← h.2, h5]; simp
      · rw [← h.2, h5]; simp [h6, h7]

theorem style_scanVarTop_diagnostic_witness :
    style_scanVarTop true beforeLateVar (kw "var" 5 2) =
        some (afterLateVar, [{ code := "W121", line := 5, char := 2 }]) ∧
      ([({ code := "W121", line := 5, char := 2 } : Diagnostic)].length ≤ 1 ∧
        ∀ d ∈ [({ code := "W121", line := 5, char := 2 } : Diagnostic)],
          (kw "var" 5 2).name = "var" ∧ (kw "var" 5 2).type ≠ TokType.comment ∧
            d.code = "W121" ∧ d.line = (kw "var" 5 2).line ∧ d.char = (kw "var" 5 2).char) :=
  ⟨by decide, style_scanVarTop_diagnostic beforeLateVar afterLateVar (kw "var" 5 2) _ (by decide)⟩

/-- C2: scenario C, processed from the fresh state, emits exactly one diagnostic,
located at the `var` token of line 5. -/
theorem scenarioC_one_diagnostic :
    kw "var" 5 2 ∈ scenarioC ∧
      diagnosticsOf scenarioC = some [{ code := "W121", line := 5, char := 2 }] := by
  decide

/-- C3, at the failing input: the file-scope stream of scenario B is well formed
(brackets matched, lines in order) and the handler emits no diagnostic for it, where
one at the `var` of line 3 is expected. -/
theorem scenarioB_no_diagnostic :
    bracketsMatch [] scenarioB = true ∧ linesNonDecreasing scenarioB = true ∧
      diagnosticsOf scenarioB = some [] := by
  decide

/-- C4, at the failing input: a function that starts with `var v1, v2;` on one line
and `var v3;` on the next gets a diagnostic at the second `var`, where none is
expected. -/
theorem listThenVar_diagnostic :
    bracketsMatch [] listThenVar = true ∧ linesNonDecreasing listThenVar = true ∧
      diagnosticsOf listThenVar = some [{ code := "W121", line := 3, char := 2 }] := by
  decide

/-- C5, at the failing input: a whole-line comment followed by `var a;` and `var b;`
on the next two lines gets a diagnostic at the second `var`, where none is
expected. -/
theorem commentThenVars_diagnostic :
    bracketsMatch [] commentThenVars = true ∧ linesNonDecreasing commentThenVars = true ∧
      diagnosticsOf commentThenVars = some [{ code := "W121", line := 4, char := 2 }] := by
  decide

/-- C6: for every `n ≥ 2` the comma list spread over the lines `1 .. n` followed by
`var ;` on line `n + 1` is processed from the fresh state without a diagnostic;
`lastValidVarDecLn` (`last_valid_decl_line`) is `n` right after the `;` of line `n`
and `n + 1` right after the final `var`. -/
theorem scenarioD_bridges (n : Nat) (hn : 2 ≤ n) :
    diagnosticsOf (scenarioD n) = some [] ∧ lastValidAfter (scenarioDList n) = some n ∧
      lastValidAfter (scenarioDList n ++ [kw "var" (n + 1) 1]) = some (n + 1) := by
  obtain ⟨m, rfl⟩ : ∃ m, n = m + 2 := ⟨n - 2, by omega⟩
  obtain ⟨s1, e1, a0, a1, a2⟩ := scenarioDList_run m
  obtain ⟨s2, e2, b0, b1, b2⟩ := var_step s1 (m + 2) 1 a0 a1 a2
  obtain ⟨s3, e3⟩ := closing_semicolon_step s2 (m + 2 + 1) 6 b0 b1 b2
  have r2 : run s1 [kw "var" (m + 2 + 1) 1] = some (s2, []) := by
    simpa using run_cons_some e2 (rfl : run s2 [] = some (s2, []))
  have r3 : run s1 [kw "var" (m + 2 + 1) 1, pn ";" (m + 2 + 1) 6] = some (s3, []) := by
    have := run_cons_some e3 (rfl : run s3 [] = some (s3, []))
    simpa using run_cons_some e2 this
  refine ⟨?_, ?_, ?_⟩
  · simp [diagnosticsOf, scenarioD, run_append_some e1 r3]
  · simp [lastValidAfter, e1, a1]
  · simp [lastValidAfter, run_append_some e1 r2, b1]

theorem scenarioD_bridges_witness :
    2 ≤ 3 ∧ (diagnosticsOf (scenarioD 3) = some [] ∧ lastValidAfter (scenarioDList 3) = some 3 ∧
      lastValidAfter (scenarioDList 3 ++ [kw "var" (3 + 1) 1]) = some (3 + 1)) :=
  ⟨by decide, scenarioD_bridges 3 (by decide)⟩


/-- C7: the nested functions, processed from the fresh state, emit exactly two
diagnostics: one at the `var` of line 6 (inner function) and one at the `var` of
line 9 (outer function). -/
theorem nestedFunctions_two_diagnostics :
    kw "var" 6 3 ∈ nestedFunctions ∧ kw "var" 9 2 ∈ nestedFunctions ∧
      diagnosticsOf nestedFunctions =
        some [{ code := "W121", line := 6, char := 3 }, { code := "W121", line := 9, char := 2 }] := by
  decide

/-- C8: scenario E emits no diagnostic, with the function body on one line and
with the body over several lines; the closing brace of the function leaves
`lastValidVarDecLn` (`last_valid_decl_line`) at its own line (1, respectively 3,
where it was 2 before the brace). -/
theorem inlineFunction_bridges :
    diagnosticsOf inlineOneLine = some [] ∧ lastValidAfter inlineOneLineBody = some 1 ∧
      diagnosticsOf inlineMultiLine = some [] ∧
      lastValidAfter inlineMultiLineBody.dropLast = some 2 ∧
      lastValidAfter inlineMultiLineBody = some 3 := by
  decide

/-- C9, at the failing input: a stream whose only token is a `var` on line 2 has
matched brackets and ordered lines, and the handler throws on it (the read of
`lastToken.line` at line 263 finds `lastToken` undefined). -/
theorem first_var_off_line_one_throws :
    bracketsMatch [] [kw "var" 2 1] = true ∧ linesNonDecreasing [kw "var" 2 1] = true ∧
      style_scanVarTop true fresh (kw "var" 2 1) = none ∧ run fresh [kw "var" 2 1] = none := by
  decide

/-- C10: with the option off the handler is a no-op: for every state and token it
emits nothing and returns the state unchanged in every component. -/
theorem style_scanVarTop_disabled (s : State) (data : Token) :
    style_scanVarTop false s data = some (s, []) := by
  simp [style_scanVarTop]

/-! ### Frame facts of the phases -/

theorem trailingPhase_lastValid (s : State) (lf : Option Token) (d : Token) :
    (trailingPhase s lf d).lastValidVarDecLn = s.lastValidVarDecLn := by
  unfold trailingPhase
  simp only
  split_ifs <;> rfl

theorem trailingPhase_commentLns (s : State) (lf : Option Token) (d : Token) :
    (trailingPhase s lf d).commentLns = s.commentLns := by
  unfold trailingPhase
  simp only
  split_ifs <;> rfl

theorem trailingPhase_funcDecStack (s : State) (lf : Option Token) (d : Token) :
    (trailingPhase s lf d).funcDecStack = s.funcDecStack := by
  unfold trailingPhase
  simp only
  split_ifs <;> rfl

theorem trailingPhase_puncStack (s : State) (lf : Option Token) (d : Token) :
    (trailingPhase s lf d).puncStack = s.puncStack := by
  unfold trailingPhase
  simp only
  split_ifs <;> rfl

theorem trailingPhase_validVarDecLns (s : State) (lf : Option Token) (d : Token) :
    (trailingPhase s lf d).validVarDecLns =
      if s.lastValidVarDecLn ∉ s.validVarDecLns ∧
          (match lf with
           | none => true
           | some f => f.line != d.line) = true then
        s.validVarDecLns ++ [s.lastValidVarDecLn]
      else s.validVarDecLns := by
  unfold trailingPhase
  simp only
  split_ifs <;> rfl

theorem trailingPhase_recorded (s : State) (lf : Option Token) (d : Token) :
    (trailingPhase s lf d).lastValidVarDecLn ∈ (trailingPhase s lf d).validVarDecLns ∨
      ∃ f, lf = some f ∧ f.line = d.line := by
  rw [trailingPhase_lastValid, trailingPhase_validVarDecLns]
  cases lf with
  | none =>
    left
    by_cases h : s.lastValidVarDecLn ∈ s.validVarDecLns <;> simp [h]
  | some f =>
    by_cases hl : f.line = d.line
    · right; exact ⟨f, rfl, hl⟩
    · left
      by_cases h : s.lastValidVarDecLn ∈ s.validVarDecLns <;> simp [h, hl]

theorem declPhase_lastFunc {s s2 : State} {lf lf2 : Option Token} {d : Token}
    {ds : List Diagnostic} (h : declPhase s lf d = some (s2, lf2, ds)) :
    lf2 = lf ∨ (d.name = "function" ∧ lf2 = some d) := by
  unfold declPhase at h
  split_ifs at h with h1 h2 h3 h4
  · simp at h; exact Or.inr ⟨h1, h.2.1.symm⟩
  · simp at h; exact Or.inl h.2.1.symm
  · simp at h; exact Or.inl h.2.1.symm
  · cases hv : varBranch s lf d with
    | none => simp [hv] at h
    | some r => simp [hv] at h; exact Or.inl h.2.1.symm
  · simp at h; exact Or.inl h.2.1.symm

/-- C11 (amended): after every step that completes, `lastValidVarDecLn` is a member
of `validVarDecLns`, unless the token is named `function` or lies on the line of the
function that was on top of `funcDecStack` when the step began. -/
theorem lastValid_recorded (s s1 : State) (data : Token) (ds : List Diagnostic)
    (h : style_scanVarTop true s data = some (s1, ds)) :
    s1.lastValidVarDecLn ∈ s1.validVarDecLns ∨ data.name = "function" ∨
      ∃ f, s.funcDecStack.head? = some f ∧ f.line = data.line := by
  unfold style_scanVarTop at h
  simp only [Bool.true_eq_false, if_false] at h
  cases hb : bracketPhase s s.funcDecStack.head? data with
  | none => simp [hb] at h
  | some sb =>
    simp only [hb] at h
    cases hd : declPhase sb s.funcDecStack.head? data with
    | none => simp [hd] at h
    | some r =>
      obtain ⟨s2, lf2, ds2⟩ := r
      simp only [hd, Option.some.injEq, Prod.mk.injEq] at h
      obtain ⟨rfl, -⟩ := h
      rcases trailingPhase_recorded s2 lf2 data with h1 | ⟨f, h1, h2⟩
      · exact Or.inl h1
      · rcases declPhase_lastFunc hd with h3 | ⟨h3, -⟩
        · exact Or.inr (Or.inr ⟨f, by rw [← h3, h1], h2⟩)
        · exact Or.inr (Or.inl h3)

theorem bracketPhase_lastValid {s sb : State} {lf : Option Token} {d : Token}
    (h : bracketPhase s lf d = some sb) :
    (sb.lastValidVarDecLn = s.lastValidVarDecLn ∧ sb.commentLns = s.commentLns) ∨
      (sb.lastValidVarDecLn = d.line ∧ sb.commentLns = 0 ∧ d.type = TokType.punctuator ∧
        d.name ≠ "function" ∧ d.name ≠ "var" ∧ d.name ≠ "," ∧ d.name ≠ ";") := by
  unfold bracketPhase at h
  split_ifs at h with h1 h2
  · simp at h; subst h; simp
  · have hn : d.name ≠ "function" ∧ d.name ≠ "var" ∧ d.name ≠ "," ∧ d.name ≠ ";" := by
      have := h1.2
      simp [openPuncs, closePuncs] at this
      rcases this with h3 | h3 | h3 | h3 | h3 | h3 <;> simp [h3]
    split at h
    · simp at h
    · simp only at h
      split_ifs at h with h3 h4
      · split at h
        · split_ifs at h <;> simp at h <;> subst h <;> simp [h1.1, hn]
        · simp at h; subst h; simp [h1.1, hn]
      · split at h
        · simp at h; subst h; simp [h1.1, hn]
        · split_ifs at h <;> simp at h <;> subst h <;> simp [h1.1, hn]
      · simp at h; subst h; simp
  · simp at h; subst h; simp

theorem contiguousBody_commentLns (s : State) (d : Token) : (contiguousBody s d).commentLns = 0 := by
  simp [contiguousBody]

theorem contiguousBody_lastValid_ge (s : State) (d : Token)
    (h : s.lastValidVarDecLn ≤ d.line) :
    s.lastValidVarDecLn + s.commentLns ≤ (contiguousBody s d).lastValidVarDecLn := by
  simp only [contiguousBody]
  split_ifs <;> omega

theorem varBranch_lastValid {s s1 : State} {lf : Option Token} {d : Token}
    {ds : List Diagnostic} (h : varBranch s lf d = some (s1, ds)) :
    s1 = s ∨ (s1.lastValidVarDecLn = d.line ∧ s1.commentLns = 0) := by
  unfold varBranch at h
  split at h
  · simp at h
  · split_ifs at h <;> simp at h
    · exact Or.inl h.1.symm
    · exact Or.inl h.1.symm
    · right; simp [← h.1]

theorem declPhase_lastValid {s s2 : State} {lf lf2 : Option Token} {d : Token}
    {ds : List Diagnostic} (h : declPhase s lf d = some (s2, lf2, ds)) :
    (d.name = "function" ∧ s2.lastValidVarDecLn = s.lastValidVarDecLn ∧ s2.commentLns = 0) ∨
      (d.type = TokType.comment ∧ s2.lastValidVarDecLn = s.lastValidVarDecLn ∧
        s.commentLns ≤ s2.commentLns) ∨
      (s2.lastValidVarDecLn = s.lastValidVarDecLn ∧ s2.commentLns = s.commentLns) ∨
      (s2 = contiguousBody s d) ∨
      (s2.lastValidVarDecLn = d.line ∧ s2.commentLns = 0) := by
  unfold declPhase at h
  split_ifs at h with h1 h2 h3 h4
  · simp at h; left; simp [← h.1, h1]
  · simp at h; right; left; simp [← h.1, h2]
  · simp at h; right; right; right; left; exact h.1.symm
  · cases hv : varBranch s lf d with
    | none => simp [hv] at h
    | some r =>
      obtain ⟨sv, dv⟩ := r
      simp [hv] at h
      rcases varBranch_lastValid hv with h5 | h5
      · right; right; left; rw [← h.1, h5]; simp
      · right; right; right; right; rw [← h.1]; exact h5
  · simp at h; right; right; left; simp [← h.1]

/-- C12 (amended): whenever a step changes `lastValidVarDecLn`, `commentLns` is 0
afterwards; and a step that takes `commentLns` from a non-zero value to 0 changes
`lastValidVarDecLn` unless the token is named `function` or its line is not beyond
`lastValidVarDecLn`. -/
theorem commentLns_reset_with_lastValid (s s1 : State) (data : Token) (ds : List Diagnostic)
    (h : style_scanVarTop true s data = some (s1, ds)) :
    (s1.lastValidVarDecLn ≠ s.lastValidVarDecLn → s1.commentLns = 0) ∧
      (s.commentLns ≠ 0 → s1.commentLns = 0 → data.name ≠ "function" →
        s.lastValidVarDecLn < data.line → s1.lastValidVarDecLn ≠ s.lastValidVarDecLn) := by
  unfold style_scanVarTop at h
  simp only [Bool.true_eq_false, if_false] at h
  cases hb : bracketPhase s s.funcDecStack.head? data with
  | none => simp [hb] at h
  | some sb =>
    simp only [hb] at h
    cases hd : declPhase sb s.funcDecStack.head? data with
    | none => simp [hd] at h
    | some r =>
      obtain ⟨s2, lf2, ds2⟩ := r
      simp only [hd, Option.some.injEq, Prod.mk.injEq] at h
      obtain ⟨rfl, -⟩ := h
      rw [trailingPhase_lastValid, trailingPhase_commentLns]
      have hge := contiguousBody_lastValid_ge sb data
      have hc0 := contiguousBody_commentLns sb data
      rcases bracketPhase_lastValid hb with ⟨b1, b2⟩ | ⟨b1, b2, b3, b4, b5, b6, b7⟩
      · rcases declPhase_lastValid hd with ⟨d1, d2, d3⟩ | ⟨d1, d2, d3⟩ | ⟨d2, d3⟩ | d2 | ⟨d2, d3⟩
        · exact ⟨fun _ => d3, fun _ _ hf _ => absurd d1 hf⟩
        · exact ⟨fun hne => absurd (d2.trans b1) hne, fun h0 h1 _ _ => by omega⟩
        · exact ⟨fun hne => absurd (d2.trans b1) hne, fun h0 h1 _ _ => by omega⟩
        · subst d2
          exact ⟨fun _ => hc0, fun h0 _ _ hl => by have := hge (by omega); omega⟩
        · exact ⟨fun _ => d3, fun _ _ _ hl => by omega⟩
      · rcases declPhase_lastValid hd with ⟨d1, d2, d3⟩ | ⟨d1, d2, d3⟩ | ⟨d2, d3⟩ | d2 | ⟨d2, d3⟩
        · exact absurd d1 b4
        · rw [b3] at d1; exact absurd d1 (by decide)
        · exact ⟨fun _ => by omega, fun _ _ _ hl => by omega⟩
        · subst d2
          exact ⟨fun _ => hc0, fun h0 _ _ hl => by have := hge (by omega); omega⟩
        · exact ⟨fun _ => d3, fun _ _ _ hl => by omega⟩

/-- C18 (amended): for every state and every opening-bracket punctuator the step
completes, pushes the token onto `puncStack`, leaves `funcDecStack` unchanged and
emits no diagnostic; `lastValidVarDecLn` and `commentLns` are unchanged unless the
token satisfies the contiguity condition of lines 245-246, in which case
`commentLns` is added to `lastValidVarDecLn` and reset to 0. -/
theorem opener_step (s : State) (data : Token) (ht : data.type = TokType.punctuator)
    (hn : data.name ∈ openPuncs) :
    ∃ s1, style_scanVarTop true s data = some (s1, []) ∧ s1.puncStack = data :: s.puncStack ∧
      s1.funcDecStack = s.funcDecStack ∧
      (contiguous s s.funcDecStack.head? data = true →
        s1.lastValidVarDecLn = s.lastValidVarDecLn + s.commentLns ∧ s1.commentLns = 0) ∧
      (contiguous s s.funcDecStack.head? data = false →
        s1.lastValidVarDecLn = s.lastValidVarDecLn ∧ s1.commentLns = s.commentLns) := by
  have hne : data.name ≠ "function" ∧ data.name ≠ "var" ∧ data.name ≠ "," ∧ data.name ≠ ";" := by
    simp [openPuncs] at hn
    rcases hn with h | h | h <;> simp [h]
  have hb : bracketPhase s s.funcDecStack.head? data =
      some { s with puncStack := data :: s.puncStack } := by
    simp [bracketPhase, ht, hn]
  have hc : contiguous { s with puncStack := data :: s.puncStack } s.funcDecStack.head? data =
      contiguous s s.funcDecStack.head? data := rfl
  cases hcon : contiguous s s.funcDecStack.head? data with
  | true =>
    refine ⟨trailingPhase (contiguousBody { s with puncStack := data :: s.puncStack } data)
      s.funcDecStack.head? data, ?_, ?_, ?_, ?_, ?_⟩
    · simp [style_scanVarTop, hb, declPhase, hne, ht, hc, hcon]
    · rw [trailingPhase_puncStack]; rfl
    · rw [trailingPhase_funcDecStack]; rfl
    · intro _
      rw [trailingPhase_lastValid, trailingPhase_commentLns]
      simp [contiguousBody, hne]
    · intro h; simp at h
  | false =>
    refine ⟨trailingPhase { s with puncStack := data :: s.puncStack } s.funcDecStack.head? data,
      ?_, ?_, ?_, ?_, ?_⟩
    · simp [style_scanVarTop, hb, declPhase, hne, ht, hc, hcon]
    · rw [trailingPhase_puncStack]
    · rw [trailingPhase_funcDecStack]
    · intro h; simp at h
    · intro _
      rw [trailingPhase_lastValid, trailingPhase_commentLns]
      exact ⟨rfl, rfl⟩

theorem opener_step_witness :
    (pn "(" 2 1).type = TokType.punctuator ∧ (pn "(" 2 1).name ∈ openPuncs ∧
      ∃ s1, style_scanVarTop true afterComment (pn "(" 2 1) = some (s1, []) ∧
        s1.puncStack = pn "(" 2 1 :: afterComment.puncStack ∧
        s1.funcDecStack = afterComment.funcDecStack ∧
        (contiguous afterComment afterComment.funcDecStack.head? (pn "(" 2 1) = true →
          s1.lastValidVarDecLn = afterComment.lastValidVarDecLn + afterComment.commentLns ∧
            s1.commentLns = 0) ∧
        (contiguous afterComment afterComment.funcDecStack.head? (pn "(" 2 1) = false →
          s1.lastValidVarDecLn = afterComment.lastValidVarDecLn ∧
            s1.commentLns = afterComment.commentLns) :=
  ⟨by decide, by decide, opener_step afterComment (pn "(" 2 1) (by decide) (by decide)⟩

/-- C18, counterexample: after a comment on line 1 the opening parenthesis on line 2
is contiguous, and the step moves `lastValidVarDecLn` from 0 to 1 and `commentLns`
from 1 to 0. -/
theorem paren_after_comment_moves_counters :
    run fresh [cm "// c" 1 1] = some (afterComment, []) ∧
      isOpener (pn "(" 2 1) = true ∧
      (style_scanVarTop true afterComment (pn "(" 2 1)).map
          (fun r => (r.1.lastValidVarDecLn, r.1.commentLns)) = some (1, 0) ∧
      (afterComment.lastValidVarDecLn, afterComment.commentLns) = (0, 1) := by
  decide

/-- C11, counterexample: after the `var` of the one-line `function f() { var a; }`
the value of `lastValidVarDecLn` is 1 and `validVarDecLns` is empty. -/
theorem oneLineFunctionVar_not_recorded :
    (run fresh oneLineFunctionVar).map
        (fun r => (r.1.lastValidVarDecLn, r.1.validVarDecLns)) = some (1, []) ∧
      (1 : Nat) ∉ ([] : List Nat) := by
  decide

theorem lastValid_recorded_witness :
    style_scanVarTop true fresh (kw "var" 1 1) =
        some (afterFirstVar, []) ∧
      (afterFirstVar.lastValidVarDecLn ∈ afterFirstVar.validVarDecLns ∨ (kw "var" 1 1).name = "function" ∨
        ∃ f, fresh.funcDecStack.head? = some f ∧ f.line = (kw "var" 1 1).line) :=
  ⟨by decide, lastValid_recorded fresh afterFirstVar (kw "var" 1 1) [] (by decide)⟩

/-- C12, counterexample: the `function` keyword after a comment takes `commentLns`
from 1 to 0 and leaves `lastValidVarDecLn` at 0. -/
theorem function_resets_commentLns_only :
    (afterComment.commentLns, afterComment.lastValidVarDecLn) = (1, 0) ∧
      (style_scanVarTop true afterComment (kw "function" 2 1)).map
          (fun r => (r.1.commentLns, r.1.lastValidVarDecLn)) = some (0, 0) := by
  decide

theorem commentLns_reset_with_lastValid_witness :
    style_scanVarTop true afterComment (pn ";" 2 1) =
        some (afterCommentSemicolon, []) ∧
      ((afterCommentSemicolon.lastValidVarDecLn ≠ afterComment.lastValidVarDecLn →
          afterCommentSemicolon.commentLns = 0) ∧
        (afterComment.commentLns ≠ 0 → afterCommentSemicolon.commentLns = 0 →
          (pn ";" 2 1).name ≠ "function" →
          afterComment.lastValidVarDecLn < (pn ";" 2 1).line →
          afterCommentSemicolon.lastValidVarDecLn ≠ afterComment.lastValidVarDecLn)) :=
  ⟨by decide, commentLns_reset_with_lastValid afterComment afterCommentSemicolon (pn ";" 2 1) [] (by decide)⟩

/-- C13, at the failing input: in `var a = function ()` on one line the function is
on `funcDecStack` after the opening parenthesis and is popped by the closing
parenthesis of the parameter list; the body that follows is then judged with no
function open, and its late `var` is not reported. -/
theorem assignedFunction_popped_by_paren :
    (run fresh assignedFunctionOpen).map (fun r => r.1.funcDecStack) =
        some [kw "function" 1 9] ∧
      (run fresh (assignedFunctionOpen ++ [pn ")" 1 19])).map (fun r => r.1.funcDecStack) =
        some [] ∧
      bracketsMatch [] assignedFunctionLateVar = true ∧
      diagnosticsOf assignedFunctionLateVar = some [] := by
  decide

/-- C17, at the failing input: a comment whose text is exactly `function` is handled
as the keyword: it is pushed onto `funcDecStack`, `commentLns` goes from 1 to 0
instead of 2, and `lastNonCommentOrNonFunc` is cleared. -/
theorem comment_named_function_is_pushed :
    (style_scanVarTop true afterComment (cm "function" 2 1)).map
        (fun r => (r.1.commentLns, r.1.funcDecStack)) = some (0, [cm "function" 2 1]) ∧
      afterComment.commentLns + commentLineCount "function" = 2 ∧
      beforeLateVar.lastNonCommentOrNonFunc = some (pn ";" 4 9) ∧
      (style_scanVarTop true beforeLateVar (cm "function" 5 2)).map
        (fun r => (r.1.lastNonCommentOrNonFunc, r.1.funcDecStack)) =
          some (none, [cm "function" 5 2, kw "function" 1 2]) := by
  decide

/-- C19, at the failing inputs: after the `;` of line 2 of `listThenVar` the value of
`lastValidVarDecLn` is 3, and after the `var` of line 3 of `commentThenVars` it is
4; both streams are in line order. -/
theorem lastValid_beyond_current_line :
    linesNonDecreasing (listThenVar.take 7) = true ∧
      (listThenVar.take 7).getLast? = some (pn ";" 2 12) ∧
      lastValidAfter (listThenVar.take 7) = some 3 ∧
      linesNonDecreasing (commentThenVars.take 6) = true ∧
      (commentThenVars.take 6).getLast? = some (kw "var" 3 2) ∧
      lastValidAfter (commentThenVars.take 6) = some 4 := by
  decide

/-! ### Diagnostics up to a throw, and streams without `function` -/

theorem emitted_cons_some {s s1 : State} {t : Token} {ts : List Token} {ds : List Diagnostic}
    (h : style_scanVarTop true s t = some (s1, ds)) :
    emitted s (t :: ts) = ds ++ emitted s1 ts := by
  rw [emitted, h]

theorem emitted_cons_none {s : State} {t : Token} {ts : List Token}
    (h : style_scanVarTop true s t = none) : emitted s (t :: ts) = [] := by
  rw [emitted, h]

theorem emitted_of_run {s s1 : State} {ts : List Token} {ds : List Diagnostic}
    (h : run s ts = some (s1, ds)) : emitted s ts = ds := by
  induction ts generalizing s s1 ds with
  | nil => simp [run] at h; simp [emitted, h.2]
  | cons t ts ih =>
    rw [run] at h
    cases hs : style_scanVarTop true s t with
    | none => simp [hs] at h
    | some r =>
      obtain ⟨sa, da⟩ := r
      simp only [hs] at h
      cases hr : run sa ts with
      | none => simp [hr] at h
      | some r1 =>
        obtain ⟨sb, db⟩ := r1
        simp only [hr, Option.some.injEq, Prod.mk.injEq] at h
        rw [emitted_cons_some hs, ih hr]
        exact h.2

theorem emitted_append {s s1 : State} {a b : List Token} {ds : List Diagnostic}
    (h : run s a = some (s1, ds)) : emitted s (a ++ b) = ds ++ emitted s1 b := by
  induction a generalizing s ds with
  | nil =>
    simp only [run, Option.some.injEq, Prod.mk.injEq] at h
    obtain ⟨rfl, rfl⟩ := h
    simp
  | cons t ts ih =>
    rw [run] at h
    cases hs : style_scanVarTop true s t with
    | none => simp [hs] at h
    | some r =>
      obtain ⟨sa, da⟩ := r
      simp only [hs] at h
      cases hr : run sa ts with
      | none => simp [hr] at h
      | some r1 =>
        obtain ⟨sb, db⟩ := r1
        simp only [hr, Option.some.injEq, Prod.mk.injEq] at h
        obtain ⟨rfl, rfl⟩ := h
        rw [List.cons_append, emitted_cons_some hs, ih hr, List.append_assoc]

theorem step_no_diagnostic_of_not_var {s s1 : State} {data : Token} {ds : List Diagnostic}
    (hn : data.name ≠ "var") (h : style_scanVarTop true s data = some (s1, ds)) : ds = [] := by
  unfold style_scanVarTop at h
  simp only [Bool.true_eq_false, if_false] at h
  cases hb : bracketPhase s s.funcDecStack.head? data with
  | none => simp [hb] at h
  | some sb =>
    simp only [hb] at h
    cases hd : declPhase sb s.funcDecStack.head? data with
    | none => simp [hd] at h
    | some r =>
      obtain ⟨s2, lf2, ds2⟩ := r
      simp only [hd, Option.some.injEq, Prod.mk.injEq] at h
      rcases declPhase_diag hd with h5 | ⟨-, h6, -⟩
      · rw [← h.2, h5]
      · exact absurd h6 hn

theorem emitted_of_no_var (ts : List Token) :
    ∀ s : State, (∀ t ∈ ts, t.name ≠ "var") → emitted s ts = [] := by
  induction ts with
  | nil => intro s _; rfl
  | cons t ts ih =>
    intro s h
    cases hs : style_scanVarTop true s t with
    | none => exact emitted_cons_none hs
    | some r =>
      obtain ⟨sa, da⟩ := r
      have h1 := step_no_diagnostic_of_not_var (h t (List.mem_cons_self t ts)) hs
      have h2 := ih sa (fun x hx => h x (List.mem_cons_of_mem t hx))
      rw [emitted_cons_some hs, h1, h2]
      rfl

theorem trailingPhase_lastNonComment_none (s : State) (d : Token) :
    (trailingPhase s none d).lastNonCommentOrNonFunc = s.lastNonCommentOrNonFunc := by
  unfold trailingPhase
  simp only
  split_ifs <;> simp_all

theorem fileScope_step {s s1 : State} {data : Token} {ds : List Diagnostic}
    (hf : s.funcDecStack = []) (hl : s.lastNonCommentOrNonFunc = none)
    (hn : data.name ≠ "function") (h : style_scanVarTop true s data = some (s1, ds)) :
    ds = [] ∧ s1.funcDecStack = [] ∧ s1.lastNonCommentOrNonFunc = none := by
  unfold style_scanVarTop at h
  simp only [Bool.true_eq_false, if_false, hf, List.head?_nil] at h
  have hb : ∀ sb, bracketPhase s none data = some sb →
      sb.funcDecStack = [] ∧ sb.lastNonCommentOrNonFunc = none := by
    intro sb hsb
    unfold bracketPhase at hsb
    split_ifs at hsb with h1 h2
    · simp at hsb; subst hsb; exact ⟨hf, hl⟩
    · split at hsb
      · simp at hsb
      · simp only at hsb
        split_ifs at hsb <;> simp at hsb <;> subst hsb <;> simp [hf, hl]
    · simp at hsb; subst hsb; exact ⟨hf, hl⟩
  cases hbr : bracketPhase s none data with
  | none => simp [hbr] at h
  | some sb =>
    obtain ⟨b1, b2⟩ := hb sb hbr
    simp only [hbr] at h
    have hd : ∀ s2 lf2 ds2, declPhase sb none data = some (s2, lf2, ds2) →
        ds2 = [] ∧ lf2 = none ∧ s2.funcDecStack = [] ∧ s2.lastNonCommentOrNonFunc = none := by
      intro s2 lf2 ds2 hs2
      unfold declPhase at hs2
      rw [if_neg hn] at hs2
      split_ifs at hs2 with h2 h3 h4
      · simp at hs2; obtain ⟨rfl, rfl, rfl⟩ := hs2; simp [b1, b2]
      · simp at hs2; obtain ⟨rfl, rfl, rfl⟩ := hs2; simp [b1, b2, contiguousBody]
      · unfold varBranch at hs2
        cases hlt : sb.lastToken with
        | none => simp [hlt] at hs2
        | some lt =>
          simp [hlt, b2] at hs2
          obtain ⟨rfl, rfl, rfl⟩ := hs2
          simp [b1]
      · simp at hs2; obtain ⟨rfl, rfl, rfl⟩ := hs2; simp [b1, b2]
    cases hdr : declPhase sb none data with
    | none => simp [hdr] at h
    | some r =>
      obtain ⟨s2, lf2, ds2⟩ := r
      obtain ⟨d1, d2, d3, d4⟩ := hd s2 lf2 ds2 hdr
      simp only [hdr, Option.some.injEq, Prod.mk.injEq] at h
      obtain ⟨rfl, rfl⟩ := h
      refine ⟨d1, ?_, ?_⟩
      · rw [trailingPhase_funcDecStack]; exact d3
      · subst d2
        rw [trailingPhase_lastNonComment_none]; exact d4

/-- C20: for every stream without a token named `function`, processed from the
fresh state, no diagnostic is emitted in any step that completes (whether or not a
later step throws), and every run that completes ends with `funcDecStack` empty and
`lastNonCommentOrNonFunc` unset; a prefix of such a stream is such a stream, so this
holds throughout. -/
theorem no_function_no_diagnostic (ts : List Token) (hn : ∀ t ∈ ts, t.name ≠ "function") :
    emitted fresh ts = [] ∧
      ∀ s ds, run fresh ts = some (s, ds) →
        ds = [] ∧ s.funcDecStack = [] ∧ s.lastNonCommentOrNonFunc = none := by
  have key : ∀ (l : List Token) (s0 : State), (∀ t ∈ l, t.name ≠ "function") →
      s0.funcDecStack = [] → s0.lastNonCommentOrNonFunc = none →
      emitted s0 l = [] ∧
        ∀ s ds, run s0 l = some (s, ds) →
          ds = [] ∧ s.funcDecStack = [] ∧ s.lastNonCommentOrNonFunc = none := by
    intro l
    induction l with
    | nil =>
      intro s0 _ hf hl
      refine ⟨rfl, ?_⟩
      intro s ds h
      simp only [run, Option.some.injEq, Prod.mk.injEq] at h
      obtain ⟨rfl, rfl⟩ := h
      exact ⟨rfl, hf, hl⟩
    | cons t l ih =>
      intro s0 hn0 hf hl
      have hnt := hn0 t (List.mem_cons_self t l)
      have hnl : ∀ x ∈ l, x.name ≠ "function" := fun x hx => hn0 x (List.mem_cons_of_mem t hx)
      cases hs : style_scanVarTop true s0 t with
      | none => exact ⟨emitted_cons_none hs, by simp [run, hs]⟩
      | some r =>
        obtain ⟨sa, da⟩ := r
        obtain ⟨a1, a2, a3⟩ := fileScope_step hf hl hnt hs
        obtain ⟨i1, i2⟩ := ih sa hnl a2 a3
        refine ⟨by rw [emitted_cons_some hs, a1, i1]; rfl, ?_⟩
        intro s ds h
        rw [run, hs] at h
        cases hr : run sa l with
        | none => simp [hr] at h
        | some r1 =>
          obtain ⟨sb, db⟩ := r1
          simp only [hr, Option.some.injEq, Prod.mk.injEq] at h
          obtain ⟨rfl, rfl⟩ := h
          obtain ⟨j1, j2, j3⟩ := i2 sb db hr
          exact ⟨by simp [a1, j1], j2, j3⟩
  exact key ts fresh hn rfl rfl

theorem no_function_no_diagnostic_witness :
    (∀ t ∈ scenarioB, t.name ≠ "function") ∧
      (emitted fresh scenarioB = [] ∧
        ∀ s ds, run fresh scenarioB = some (s, ds) →
          ds = [] ∧ s.funcDecStack = [] ∧ s.lastNonCommentOrNonFunc = none) :=
  ⟨by decide, no_function_no_diagnostic scenarioB (by decide)⟩

/-! ### Declarations at the top of a function -/

theorem trailingPhase_lastValidLnPunc (s : State) (lf : Option Token) (d : Token) :
    (trailingPhase s lf d).lastValidLnPunc =
      if d.type = TokType.punctuator ∧ s.lastValidVarDecLn = d.line then some d
      else s.lastValidLnPunc := by
  unfold trailingPhase
  simp only
  split_ifs <;> simp_all

@[simp] theorem kw_type (n : String) (l c : Nat) : (kw n l c).type = TokType.keyword := rfl

@[simp] theorem kw_name (n : String) (l c : Nat) : (kw n l c).name = n := rfl

@[simp] theorem kw_line (n : String) (l c : Nat) : (kw n l c).line = l := rfl

@[simp] theorem pn_type (n : String) (l c : Nat) : (pn n l c).type = TokType.punctuator := rfl

@[simp] theorem pn_name (n : String) (l c : Nat) : (pn n l c).name = n := rfl

@[simp] theorem pn_line (n : String) (l c : Nat) : (pn n l c).line = l := rfl

theorem top_var_step (s : State) (f : Token) (k c : Nat) (h0 : s.commentLns = 0)
    (hf : s.funcDecStack.head? = some f) (hc : s.lastValidVarDecLn = k ∨ k = f.line) :
    ∃ s1, style_scanVarTop true s (kw "var" (k + 1) c) = some (s1, []) ∧ s1.commentLns = 0 ∧
      s1.lastValidVarDecLn = k + 1 ∧ s1.funcDecStack = s.funcDecStack ∧
      s1.lastValidLnPunc = s.lastValidLnPunc := by
  have hcon : contiguous s (some f) (kw "var" (k + 1) c) = true := by
    rcases hc with h | h <;> simp [contiguous, h0, h]
  refine ⟨trailingPhase (contiguousBody s (kw "var" (k + 1) c)) (some f) (kw "var" (k + 1) c),
    ?_, ?_, ?_, ?_, ?_⟩
  · simp [style_scanVarTop, hf, bracketPhase, declPhase, hcon]
  · rw [trailingPhase_commentLns]; simp [contiguousBody]
  · rw [trailingPhase_lastValid]; simp [contiguousBody, h0]
  · rw [trailingPhase_funcDecStack]; simp [contiguousBody]
  · rw [trailingPhase_lastValidLnPunc]; simp [contiguousBody]

theorem top_punctuator_step (s : State) (nm : String) (m c : Nat)
    (hnm : nm = "=" ∨ nm = ";") (h0 : s.commentLns = 0) (hl : s.lastValidVarDecLn = m)
    (hp : lnPuncName s.lastValidLnPunc ≠ ",") :
    ∃ s1, style_scanVarTop true s (pn nm m c) = some (s1, []) ∧ s1.commentLns = 0 ∧
      s1.lastValidVarDecLn = m ∧ s1.funcDecStack = s.funcDecStack ∧
      lnPuncName s1.lastValidLnPunc ≠ "," := by
  have hb : bracketPhase s s.funcDecStack.head? (pn nm m c) = some s := by
    rcases hnm with h | h <;> simp [bracketPhase, h, openPuncs, closePuncs]
  have hne : nm ≠ "function" ∧ nm ≠ "var" ∧ nm ≠ "," := by
    rcases hnm with h | h <;> simp [h]
  cases hcon : contiguous s s.funcDecStack.head? (pn nm m c) with
  | true =>
    refine ⟨trailingPhase (contiguousBody s (pn nm m c)) s.funcDecStack.head? (pn nm m c),
      ?_, ?_, ?_, ?_, ?_⟩
    · simp [style_scanVarTop, hb, declPhase, hcon, hne]
    · rw [trailingPhase_commentLns]; simp [contiguousBody]
    · rw [trailingPhase_lastValid]; simp [contiguousBody, hne, hp, h0, hl]
    · rw [trailingPhase_funcDecStack]; simp [contiguousBody]
    · rw [trailingPhase_lastValidLnPunc]
      have : (contiguousBody s (pn nm m c)).lastValidVarDecLn = m := by
        simp [contiguousBody, hne, hp, h0, hl]
      simp [this, lnPuncName, hne]
  | false =>
    refine ⟨trailingPhase s s.funcDecStack.head? (pn nm m c), ?_, ?_, ?_, ?_, ?_⟩
    · simp [style_scanVarTop, hb, declPhase, hcon, hne]
    · rw [trailingPhase_commentLns]; exact h0
    · rw [trailingPhase_lastValid]; exact hl
    · rw [trailingPhase_funcDecStack]
    · rw [trailingPhase_lastValidLnPunc]
      simp [hne, hl, lnPuncName]

theorem varStatements_run (f : Token) (m : Nat) : ∀ (s : State) (k : Nat), s.commentLns = 0 →
    s.funcDecStack.head? = some f → lnPuncName s.lastValidLnPunc ≠ "," →
    (s.lastValidVarDecLn = k ∨ k = f.line) →
    ∃ s1, run s (varStatements k m) = some (s1, []) ∧ (1 ≤ m → s1.lastValidVarDecLn = k + m) := by
  induction m with
  | zero =>
    intro s k _ _ _ _
    exact ⟨s, rfl, fun h => absurd h (by decide)⟩
  | succ m ih =>
    intro s k h0 hf hp hc
    obtain ⟨s1, e1, a0, a1, a2, a3⟩ := top_var_step s f k 2 h0 hf hc
    obtain ⟨s2, e2, b0, b1, b2, b3⟩ :=
      top_punctuator_step s1 "=" (k + 1) 8 (Or.inl rfl) a0 a1 (by rw [a3]; exact hp)
    obtain ⟨s3, e3, c0, c1, c2, c3⟩ :=
      top_punctuator_step s2 ";" (k + 1) 12 (Or.inr rfl) b0 b1 b3
    obtain ⟨s4, e4, d1⟩ := ih s3 (k + 1) c0 (by rw [c2, b2, a2]; exact hf) c3 (Or.inl c1)
    refine ⟨s4, ?_, ?_⟩
    · have r3 := run_cons_some e3 e4
      have r2 := run_cons_some e2 r3
      have r1 := run_cons_some e1 r2
      simpa [varStatements] using r1
    · intro _
      cases m with
      | zero =>
        simp only [varStatements, run, Option.some.injEq, Prod.mk.injEq] at e4
        rw [← e4.1]; exact c1
      | succ m => have := d1 (by omega); omega

theorem functionHeader_run (L : Nat) (hL : 1 ≤ L) :
    ∃ s1, run fresh (functionHeader L) = some (s1, []) ∧ s1.commentLns = 0 ∧
      s1.funcDecStack.head? = some (kw "function" L 1) ∧ s1.lastValidLnPunc = none := by
  have h1 : ¬ (L = 0) := by omega
  simp [functionHeader, run, style_scanVarTop, fresh, bracketPhase, declPhase, trailingPhase,
    contiguous, contiguousBody, kw, pn, openPuncs, closePuncs, lnPuncName]
  split_ifs <;> simp_all

/-- C16: for every `n`, every line `L ≥ 1` and every tail without a token named
`var` or `function`, the function header on line `L` followed by `n` statements
`var x = ...;` on the lines `L + 1 .. L + n` and the tail, processed from the fresh
state, emits no diagnostic (in the steps that complete, and in the whole run when it
completes); the header and the statements are processed without a throw, and for
`n ≥ 1` the value of `lastValidVarDecLn` right after the `n`-th statement is
`L + n`. -/
theorem top_declarations_no_diagnostic (n L : Nat) (tail : List Token) (hL : 1 ≤ L)
    (ht : ∀ t ∈ tail, t.name ≠ "var" ∧ t.name ≠ "function") :
    emitted fresh (functionHeader L ++ varStatements L n ++ tail) = [] ∧
      (∀ s ds, run fresh (functionHeader L ++ varStatements L n ++ tail) = some (s, ds) →
        ds = []) ∧
      ∃ s1, run fresh (functionHeader L ++ varStatements L n) = some (s1, []) ∧
        (1 ≤ n → s1.lastValidVarDecLn = L + n) := by
  obtain ⟨s0, e0, a0, a1, a2⟩ := functionHeader_run L hL
  obtain ⟨s1, e1, b1⟩ := varStatements_run (kw "function" L 1) n s0 L a0 a1
    (by rw [a2]; decide) (Or.inr rfl)
  have e2 := run_append_some e0 e1
  simp only [List.append_nil] at e2
  have h3 : emitted fresh (functionHeader L ++ varStatements L n ++ tail) = [] := by
    rw [emitted_append e2, emitted_of_no_var tail s1 (fun t h => (ht t h).1)]
    rfl
  refine ⟨h3, ?_, s1, e2, b1⟩
  intro s ds h
  rw [← emitted_of_run h]
  exact h3

theorem top_declarations_no_diagnostic_witness :
    1 ≤ 3 ∧ (∀ t ∈ [kw "return" 6 2, pn ";" 6 8, pn "\x7d" 7 1],
        t.name ≠ "var" ∧ t.name ≠ "function") ∧
      (emitted fresh (functionHeader 3 ++ varStatements 3 2 ++
          [kw "return" 6 2, pn ";" 6 8, pn "\x7d" 7 1]) = [] ∧
        (∀ s ds, run fresh (functionHeader 3 ++ varStatements 3 2 ++
            [kw "return" 6 2, pn ";" 6 8, pn "\x7d" 7 1]) = some (s, ds) → ds = []) ∧
        ∃ s1, run fresh (functionHeader 3 ++ varStatements 3 2) = some (s1, []) ∧
          (1 ≤ 2 → s1.lastValidVarDecLn = 3 + 2)) :=
  ⟨by decide, by decide,
    top_declarations_no_diagnostic 2 3 [kw "return" 6 2, pn ";" 6 8, pn "\x7d" 7 1]
      (by decide) (by decide)⟩

/-! ### Comments -/

theorem splitNewline_length (cs : List Char) :
    ∀ cur : List Char, (splitNewline cur cs).length = cs.count '\n' + 1 := by
  induction cs with
  | nil => intro cur; rfl
  | cons c cs ih =>
    intro cur
    by_cases h : c = '\n'
    · subst h
      simp [splitNewline, ih]
    · have h2 : ¬ ((c == '\n') = true) := by simpa using h
      simp [splitNewline, h, ih, List.count_cons, h2]

theorem commentLineCount_eq (name : String) :
    commentLineCount name = name.toList.count '\n' + 1 :=
  splitNewline_length name.toList []

theorem comment_step (s : State) (data : Token) (ht : data.type = TokType.comment)
    (hn : data.name ≠ "function") :
    ∃ s1, style_scanVarTop true s data = some (s1, []) ∧
      s1.commentLns = s.commentLns + (data.name.toList.count '\n' + 1) ∧
      s1.lastValidVarDecLn = s.lastValidVarDecLn ∧ s1.funcDecStack = s.funcDecStack ∧
      s1.puncStack = s.puncStack ∧ s1.lastNonCommentOrNonFunc = s.lastNonCommentOrNonFunc := by
  refine ⟨trailingPhase { s with commentLns := s.commentLns + commentLineCount data.name }
    s.funcDecStack.head? data, ?_, ?_, ?_, ?_, ?_, ?_⟩
  · simp [style_scanVarTop, bracketPhase, declPhase, ht, hn]
  · rw [trailingPhase_commentLns, ← commentLineCount_eq]
  · rw [trailingPhase_lastValid]
  · rw [trailingPhase_funcDecStack]
  · rw [trailingPhase_puncStack]
  · unfold trailingPhase
    simp only [ht]
    split_ifs <;> simp_all

/-! ### The bracket stack -/

theorem not_isOpener_of_isCloser {t : Token} (h : isCloser t = true) : isOpener t = false := by
  simp only [isCloser, closePuncs, decide_eq_true_eq] at h
  simp only [isOpener, openPuncs, decide_eq_false_iff_not]
  rcases h with ⟨-, h⟩
  simp at h
  rcases h with h | h | h <;> simp [h]

theorem bracketPhase_puncStack {s sb : State} {lf : Option Token} {t : Token}
    (h : bracketPhase s lf t = some sb) :
    (isOpener t = true → sb.puncStack = t :: s.puncStack) ∧
      (isCloser t = true → ∃ o, s.puncStack = o :: sb.puncStack) ∧
      (isOpener t = false → isCloser t = false → sb.puncStack = s.puncStack) := by
  unfold bracketPhase at h
  split_ifs at h with h1 h2
  · have ho : isOpener t = true := by simp [isOpener, h1.1, h2]
    have hc : isCloser t = false := by
      cases hcl : isCloser t with
      | false => rfl
      | true => rw [not_isOpener_of_isCloser hcl] at ho; exact absurd ho (by decide)
    simp at h; subst h
    simp [ho, hc]
  · have ho : isOpener t = false := by simp [isOpener, h2]
    have hc : isCloser t = true := by
      have := h1.2
      simp only [List.mem_append] at this
      rcases this with h3 | h3
      · exact absurd h3 h2
      · simp [isCloser, h1.1, h3]
    simp only [ho, hc]
    split at h
    · simp at h
    · rename_i tok rest hps
      simp only at h
      have key : sb.puncStack = rest := by
        split_ifs at h
        · split at h
          · split_ifs at h <;> simp at h <;> subst h <;> rfl
          · simp at h; subst h; rfl
        · split at h
          · simp at h; subst h; rfl
          · split_ifs at h <;> simp at h <;> subst h <;> rfl
        · simp at h; subst h; rfl
      simp [hps, key]
  · have ho : isOpener t = false := by
      simp only [isOpener, decide_eq_false_iff_not]
      intro h3
      exact h1 ⟨h3.1, List.mem_append_left _ h3.2⟩
    have hc : isCloser t = false := by
      simp only [isCloser, decide_eq_false_iff_not]
      intro h3
      exact h1 ⟨h3.1, List.mem_append_right _ h3.2⟩
    simp at h; subst h
    simp [ho, hc]

theorem declPhase_puncStack {s s2 : State} {lf lf2 : Option Token} {d : Token}
    {ds : List Diagnostic} (h : declPhase s lf d = some (s2, lf2, ds)) :
    s2.puncStack = s.puncStack := by
  unfold declPhase at h
  split_ifs at h with h1 h2 h3 h4
  · simp at h; simp [← h.1]
  · simp at h; simp [← h.1]
  · simp at h; simp [← h.1, contiguousBody]
  · cases hv : varBranch s lf d with
    | none => simp [hv] at h
    | some r =>
      obtain ⟨sv, dv⟩ := r
      simp [hv] at h
      rw [← h.1]
      unfold varBranch at hv
      split at hv
      · simp at hv
      · split_ifs at hv <;> simp at hv <;> simp [← hv.1]
  · simp at h; simp [← h.1]

theorem step_puncStack {s s1 : State} {t : Token} {ds : List Diagnostic}
    (h : style_scanVarTop true s t = some (s1, ds)) :
    (isOpener t = true → s1.puncStack = t :: s.puncStack) ∧
      (isCloser t = true → ∃ o, s.puncStack = o :: s1.puncStack) ∧
      (isOpener t = false → isCloser t = false → s1.puncStack = s.puncStack) := by
  unfold style_scanVarTop at h
  simp only [Bool.true_eq_false, if_false] at h
  cases hb : bracketPhase s s.funcDecStack.head? t with
  | none => simp [hb] at h
  | some sb =>
    simp only [hb] at h
    cases hd : declPhase sb s.funcDecStack.head? t with
    | none => simp [hd] at h
    | some r =>
      obtain ⟨s2, lf2, ds2⟩ := r
      simp only [hd, Option.some.injEq, Prod.mk.injEq] at h
      obtain ⟨rfl, -⟩ := h
      rw [trailingPhase_puncStack, declPhase_puncStack hd]
      exact bracketPhase_puncStack hb

theorem unclosedOpeners_cons (st : List Token) (t : Token) (ts : List Token) :
    unclosedOpeners st (t :: ts) =
      if isOpener t = true then unclosedOpeners (t :: st) ts
      else if isCloser t = true then
        match st with
        | [] => none
        | o :: rest => if closes o t = true then unclosedOpeners rest ts else none
      else unclosedOpeners st ts := by
  cases st <;> rfl

theorem run_puncStack (ts : List Token) : ∀ (s s1 : State) (ds : List Diagnostic)
    (st : List Token), run s ts = some (s1, ds) → unclosedOpeners s.puncStack ts = some st →
    s1.puncStack = st := by
  induction ts with
  | nil =>
    intro s s1 ds st h hu
    simp only [run, Option.some.injEq, Prod.mk.injEq] at h
    simp only [unclosedOpeners, Option.some.injEq] at hu
    rw [← h.1, hu]
  | cons t ts ih =>
    intro s s1 ds st h hu
    rw [run] at h
    cases hs : style_scanVarTop true s t with
    | none => simp [hs] at h
    | some r =>
      obtain ⟨sa, da⟩ := r
      simp only [hs] at h
      cases hr : run sa ts with
      | none => simp [hr] at h
      | some r1 =>
        obtain ⟨sb, db⟩ := r1
        simp only [hr, Option.some.injEq, Prod.mk.injEq] at h
        obtain ⟨rfl, -⟩ := h
        obtain ⟨p1, p2, p3⟩ := step_puncStack hs
        rw [unclosedOpeners_cons] at hu
        cases ho : isOpener t with
        | true =>
          simp only [ho, if_true] at hu
          exact ih sa sb db st hr (by rw [p1 ho]; exact hu)
        | false =>
          cases hc : isCloser t with
          | true =>
            obtain ⟨o, ho2⟩ := p2 hc
            simp only [ho, hc, ho2, Bool.false_eq_true, if_false, if_true] at hu
            by_cases hcl : closes o t = true
            · rw [if_pos hcl] at hu
              exact ih sa sb db st hr hu
            · rw [if_neg hcl] at hu
              simp at hu
          | false =>
            simp only [ho, hc, Bool.false_eq_true, if_false] at hu
            exact ih sa sb db st hr (by rw [p3 ho hc]; exact hu)

theorem run_prefix (p q : List Token) : ∀ (s s1 : State) (ds : List Diagnostic),
    run s (p ++ q) = some (s1, ds) →
    ∃ sp dp dq, run s p = some (sp, dp) ∧ run sp q = some (s1, dq) := by
  induction p with
  | nil =>
    intro s s1 ds h
    exact ⟨s, [], ds, rfl, h⟩
  | cons t p ih =>
    intro s s1 ds h
    rw [List.cons_append, run] at h
    cases hs : style_scanVarTop true s t with
    | none => simp [hs] at h
    | some r =>
      obtain ⟨sa, da⟩ := r
      simp only [hs] at h
      cases hr : run sa (p ++ q) with
      | none => simp [hr] at h
      | some r1 =>
        obtain ⟨sb, db⟩ := r1
        simp only [hr, Option.some.injEq, Prod.mk.injEq] at h
        obtain ⟨rfl, -⟩ := h
        obtain ⟨sp, dp, dq, h1, h2⟩ := ih sa sb db hr
        exact ⟨sp, da ++ dp, dq, run_cons_some hs h1, h2⟩

theorem unclosedOpeners_prefix (p q : List Token) : ∀ (st r : List Token),
    unclosedOpeners st (p ++ q) = some r →
    ∃ m, unclosedOpeners st p = some m ∧ unclosedOpeners m q = some r := by
  induction p with
  | nil =>
    intro st r h
    exact ⟨st, rfl, h⟩
  | cons t p ih =>
    intro st r h
    rw [List.cons_append, unclosedOpeners_cons] at h
    rw [unclosedOpeners_cons]
    split_ifs at h ⊢ with h1 h2
    · exact ih _ r h
    · cases st with
      | nil => simp at h
      | cons o rest =>
        simp only at h ⊢
        split_ifs at h ⊢
        exact ih _ r h
    · exact ih _ r h

/-- C14: for every stream whose brackets are balanced and properly nested (the
reference matcher ends with nothing open) and whose run from the fresh state
completes, `puncStack` is empty after the last token; after every prefix it holds
exactly the still unclosed openers of that prefix, innermost first; and every
closing bracket pops the opener on top, which is of its own kind. -/
theorem puncStack_tracks_openers (ts : List Token) (hb : unclosedOpeners [] ts = some [])
    (hr : (run fresh ts).isSome = true) :
    (run fresh ts).map (fun r => r.1.puncStack) = some [] ∧
      (∀ p q, ts = p ++ q →
        ∃ sp dp, run fresh p = some (sp, dp) ∧ unclosedOpeners [] p = some sp.puncStack) ∧
      (∀ p c q, ts = p ++ c :: q → isCloser c = true →
        ∃ sp dp sc dc o, run fresh p = some (sp, dp) ∧
          style_scanVarTop true sp c = some (sc, dc) ∧ sp.puncStack = o :: sc.puncStack ∧
          closes o c = true) := by
  obtain ⟨⟨s, ds⟩, hrun⟩ := Option.isSome_iff_exists.mp hr
  have hpre : ∀ p q, ts = p ++ q →
      ∃ sp dp dq, run fresh p = some (sp, dp) ∧ run sp q = some (s, dq) ∧
        unclosedOpeners [] p = some sp.puncStack ∧ unclosedOpeners sp.puncStack q = some [] := by
    intro p q hpq
    subst hpq
    obtain ⟨sp, dp, dq, h1, h2⟩ := run_prefix p q fresh s ds hrun
    obtain ⟨m, u1, u2⟩ := unclosedOpeners_prefix p q [] [] hb
    have h3 : sp.puncStack = m := run_puncStack p fresh sp dp m h1 u1
    exact ⟨sp, dp, dq, h1, h2, by rw [h3]; exact u1, by rw [h3]; exact u2⟩
  refine ⟨?_, ?_, ?_⟩
  · have h1 : s.puncStack = [] := run_puncStack ts fresh s ds [] hrun hb
    simp [hrun, h1]
  · intro p q hpq
    obtain ⟨sp, dp, -, h1, -, h3, -⟩ := hpre p q hpq
    exact ⟨sp, dp, h1, h3⟩
  · intro p c q hpq hc
    obtain ⟨sp, dp, dq, h1, h2, -, h4⟩ := hpre p (c :: q) hpq
    rw [run] at h2
    cases hs : style_scanVarTop true sp c with
    | none => simp [hs] at h2
    | some r =>
      obtain ⟨sc, dc⟩ := r
      obtain ⟨o, ho⟩ := (step_puncStack hs).2.1 hc
      refine ⟨sp, dp, sc, dc, o, h1, hs, ho, ?_⟩
      rw [unclosedOpeners_cons, if_neg (by simp [not_isOpener_of_isCloser hc]), if_pos hc, ho] at h4
      by_cases hcl : closes o c = true
      · exact hcl
      · simp [hcl] at h4

theorem puncStack_tracks_openers_witness :
    unclosedOpeners [] scenarioC = some [] ∧ (run fresh scenarioC).isSome = true ∧
      (run fresh scenarioC).map (fun r => r.1.puncStack) = some [] :=
  ⟨by decide, by decide, (puncStack_tracks_openers scenarioC (by decide) (by decide)).1⟩

/-! ### Quote consistency -/

theorem style_scanQuotes_cached (q : String) (hq : q ≠ "") (e : StringEvent) :
    style_scanQuotes (OptionValue.bool true) (some q) e =
      (some q, if e.quote ≠ q then [{ code := "W110", line := e.line, char := e.char }]
        else []) := by
  have h1 : cacheTruthy (some q) = true := by simp [cacheTruthy, hq]
  by_cases h : e.quote = q
  · subst h
    simp [style_scanQuotes, OptionValue.truthy, h1]
  · have h2 : ¬ (q = e.quote) := fun h3 => h h3.symm
    simp [style_scanQuotes, OptionValue.truthy, h1, h, h2]

theorem scanQuotesTrace_cached (q : String) (hq : q ≠ "") (es : List StringEvent) :
    scanQuotesTrace (OptionValue.bool true) (some q) es =
      es.map (fun x =>
        (some q, if x.quote ≠ q then [{ code := "W110", line := x.line, char := x.char }]
          else [])) := by
  induction es with
  | nil => rfl
  | cons e es ih =>
    rw [scanQuotesTrace, style_scanQuotes_cached q hq e]
    simp only [List.map_cons, ih]

/-- C15: with `quotmark` set to `true` and an empty cache, for every non-empty
sequence of `String` events whose first quote is a non-empty string, after every
event the cached quote is the quote of the first event, and an event raises a
warning if and only if its quote differs from that of the first event; the warning
is `W110` at the location of the event. -/
theorem scanQuotes_consistency (e : StringEvent) (es : List StringEvent)
    (hq : e.quote ≠ "") :
    scanQuotesTrace (OptionValue.bool true) none (e :: es) =
      (e :: es).map (fun x =>
        (some e.quote,
          if x.quote ≠ e.quote then [{ code := "W110", line := x.line, char := x.char }]
          else [])) := by
  have h1 : style_scanQuotes (OptionValue.bool true) none e = (some e.quote, []) := by
    simp [style_scanQuotes, OptionValue.truthy, cacheTruthy]
  rw [scanQuotesTrace, h1, scanQuotesTrace_cached e.quote hq es]
  simp

theorem scanQuotes_consistency_witness :
    ({ quote := "\x22", line := 1, char := 9 } : StringEvent).quote ≠ "" ∧
      scanQuotesTrace (OptionValue.bool true) none
          [{ quote := "\x22", line := 1, char := 9 }, { quote := "\x27", line := 2, char := 9 },
           { quote := "\x22", line := 3, char := 9 }] =
        [(some "\x22", []), (some "\x22", [{ code := "W110", line := 2, char := 9 }]),
         (some "\x22", [])] :=
  ⟨by decide,
    scanQuotes_consistency { quote := "\x22", line := 1, char := 9 }
      [{ quote := "\x27", line := 2, char := 9 }, { quote := "\x22", line := 3, char := 9 }]
      (by decide)⟩

end VarTop
